import Mathlib

/-!
Verification development for the gongshow process/session supervision core.

Source files embedded here (shallow embedding, Go → Lean):
- `internal/proc/proc.go` — process tree inspector (children, descendants,
  pattern scan, existence probe).
- `internal/doctor` orphan checks (src/unnamed/part_007) — orphan session
  check (crew protection, Fix error semantics) and orphan process check
  (ancestry walk, re-verification, dry run).
- `internal/beads/daemon.go` — daemon/activity stop passes (race underflow
  clamping).

Strings are modelled as `List Char` (Go strings are byte slices; all the
relevant code is ASCII), the process table as a list of pid/ppid records,
and every external effect (signal delivery, tmux kills, `/proc` reads) as
an explicit oracle function or an explicit trace in the result value.
-/

namespace Gongshow

/-! ## Go string primitives on `List Char` -/

/-- `strings.Split(s, "-")`: split on every dash.  Mirrors Go semantics:
`Split` of the empty string is `[""]`, and `n` dashes produce `n+1` fields. -/
def splitDash : List Char → List (List Char)
  | [] => [[]]
  | c :: rest =>
    if c = '-' then [] :: splitDash rest
    else
      match splitDash rest with
      | [] => [[c]]
      | p :: ps => (c :: p) :: ps

/-- Split a string at its first dash, returning the part before and after,
or `none` when there is no dash.  Helper for `splitDash3`. -/
def splitOnce : List Char → Option (List Char × List Char)
  | [] => none
  | c :: rest =>
    if c = '-' then some ([], rest)
    else (splitOnce rest).map (fun p => (c :: p.1, p.2))

/-- `strings.SplitN(s, "-", 3)`: at most three fields, the last field keeps
any remaining dashes. -/
def splitDash3 (s : List Char) : List (List Char) :=
  match splitOnce s with
  | none => [s]
  | some (a, r) =>
    match splitOnce r with
    | none => [a, r]
    | some (b, r2) => [a, b, r2]

/-- `strings.Contains(s, pat)` via repeated prefix tests. -/
def containsL (s pat : List Char) : Bool :=
  if pat.isPrefixOf s then true
  else
    match s with
    | [] => false
    | _ :: rest => containsL rest pat

/-! ## Orphan session check (doctor) -/

/-- Embeds `isCrewSession` (doctor): split the session name on `-` and
require at least 4 parts with `parts[0] == "gt"` and `parts[2] == "crew"`. -/
def isCrewSession (session : List Char) : Bool :=
  let parts := splitDash session
  decide (parts.length ≥ 4) && (parts.getD 0 [] == ['g', 't'])
    && (parts.getD 2 [] == ['c', 'r', 'e', 'w'])

/-- Embeds `OrphanSessionCheck.isValidSession`: mayor/deacon names are always
valid; otherwise `SplitN(sess, "-", 3)` must give 3 parts and the rig part
must be in `validRigs` (any role under a valid rig is accepted). -/
def isValidSession (sess : List Char) (validRigs : List (List Char))
    (mayorSession deaconSession : List Char) : Bool :=
  if !(mayorSession == []) && sess == mayorSession then true
  else if !(deaconSession == []) && sess == deaconSession then true
  else
    match splitDash3 sess with
    | [_, rigName, role] =>
      if validRigs.contains rigName then
        -- witness and refinery are valid roles; any other name is assumed
        -- to be a polecat or crew member and accepted as well
        if role == ['w', 'i', 't', 'n', 'e', 's', 's']
            || role == ['r', 'e', 'f', 'i', 'n', 'e', 'r', 'y'] then true
        else true
      else false
    | _ => false

/-- Embeds the classification loop of `OrphanSessionCheck.Run`: skip empty
names and names without the `gt-` prefix, collect the invalid rest as the
cached orphan list. -/
def runOrphans (sessions : List (List Char)) (validRigs : List (List Char))
    (mayorSession deaconSession : List Char) : List (List Char) :=
  sessions.filter (fun s =>
    !(s == []) && (['g', 't', '-'].isPrefixOf s)
      && !(isValidSession s validRigs mayorSession deaconSession))

/-- Embeds `OrphanSessionCheck.Fix`.  `killSession` is the tmux kill oracle
(`none` = success, `some e` = the error text).  Returns the list of sessions
a kill was issued for (in order) and the returned error (Go's `lastErr`,
which is updated on every failed kill and never reset by a success). -/
def sessionFix (killSession : List Char → Option (List Char))
    (orphanSessions : List (List Char)) : List (List Char) × Option (List Char) :=
  orphanSessions.foldl
    (fun acc sess =>
      if isCrewSession sess then acc
      else
        match killSession sess with
        | none => (acc.1 ++ [sess], acc.2)
        | some e => (acc.1 ++ [sess], some e))
    ([], none)

/-! ## Process existence probe (proc.go `Exists`) -/

/-- Abstract per-PID state of the ambient process table, as seen by the
signal-delivery primitive: the process is absent, or it exists and the
caller may signal it, or it exists but signalling is refused (EPERM). -/
inductive ProcPresence where
  | absent
  | permitted
  | forbidden
deriving DecidableEq, Repr

/-- Result of `syscall.Kill(pid, sig)` as an errno: `none` on success,
`some 3` (ESRCH) when the process does not exist, `some 1` (EPERM) when it
exists but the caller lacks permission. -/
def killErrno (st : Nat → ProcPresence) (pid : Nat) (_sig : Nat) : Option Nat :=
  match st pid with
  | .absent => some 3
  | .forbidden => some 1
  | .permitted => none

/-- Embeds `Exists` (proc.go): `syscall.Kill(pid, 0) == nil`. -/
def existsPid (st : Nat → ProcPresence) (pid : Nat) : Bool :=
  killErrno st pid 0 == none

/-! ## Orphan process check (doctor) -/

/-- Embeds the `processInfo` snapshot cached by `OrphanProcessCheck.Run`. -/
structure ProcInfo where
  pid : Nat
  ppid : Nat
  cmd : List Char
deriving DecidableEq, Repr

/-- The ancestry walk of `isOrphanProcess` after the initial parent read.
`gp` is the `GetParentPID` oracle (`none` = error), `tmux` the sampled
tmux-PID registry, `fuel` the remaining loop iterations (Go: `depth < 8`),
`visited` the cycle guard, `cur` the current ancestor PID.  Returns `true`
when no tmux ancestor was found (process is orphaned). -/
def orphanLoop (gp : Nat → Option Nat) (tmux : Nat → Bool) :
    Nat → List Nat → Nat → Bool
  | 0, _, _ => true
  | fuel + 1, visited, cur =>
    if decide (cur > 1) && !(visited.contains cur) then
      if tmux cur then false
      else
        match gp cur with
        | none => true
        | some next => orphanLoop gp tmux fuel (cur :: visited) next
    else true

/-- Embeds `isOrphanProcess` (doctor): read the CURRENT parent of the
candidate (falling back to the cached `ppid` on error), then walk up at
most `maxAncestryDepth = 8` levels, stopping at PID 1, on a visited PID, or
on a parent-read error; orphaned iff no ancestor is in the registry. -/
def isOrphanProcess (gp : Nat → Option Nat) (tmux : Nat → Bool)
    (proc : ProcInfo) : Bool :=
  orphanLoop gp tmux 8 [] ((gp proc.pid).getD proc.ppid)

/-- Instrumented copy of `orphanLoop` that also counts the `GetParentPID`
lookups issued (the accumulator `n` starts at the lookups already spent). -/
def orphanLoopCount (gp : Nat → Option Nat) (tmux : Nat → Bool) :
    Nat → List Nat → Nat → Nat → Bool × Nat
  | 0, _, _, n => (true, n)
  | fuel + 1, visited, cur, n =>
    if decide (cur > 1) && !(visited.contains cur) then
      if tmux cur then (false, n)
      else
        match gp cur with
        | none => (true, n + 1)
        | some next => orphanLoopCount gp tmux fuel (cur :: visited) next (n + 1)
    else (true, n)

/-- `isOrphanProcess` instrumented with the number of parent-PID lookups it
issues: the initial `GetParentPID(proc.pid)` read plus one per loop step. -/
def isOrphanProcessCount (gp : Nat → Option Nat) (tmux : Nat → Bool)
    (proc : ProcInfo) : Bool × Nat :=
  orphanLoopCount gp tmux 8 [] ((gp proc.pid).getD proc.ppid) 1

/-- Loop state of `OrphanProcessCheck.Fix`: kill / skip counters, the trace
of signals actually issued (`(pid, sig)`, sig 0 = existence probe,
sig 15 = SIGTERM), and Go's `lastErr`. -/
structure FixAcc where
  killed : Nat
  skipped : Nat
  signals : List (Nat × Nat)
  lastErr : Option (List Char)
deriving DecidableEq, Repr

/-- One iteration of the `Fix` loop over a cached candidate.  `kill` is the
`syscallKill` oracle (`none` = delivered). -/
def procFixStep (gp : Nat → Option Nat) (tmux : Nat → Bool)
    (kill : Nat → Nat → Option (List Char)) (dryRun : Bool)
    (acc : FixAcc) (proc : ProcInfo) : FixAcc :=
  if !(isOrphanProcess gp tmux proc) then
    { acc with skipped := acc.skipped + 1 }
  else
    let acc1 := { acc with signals := acc.signals ++ [(proc.pid, 0)] }
    match kill proc.pid 0 with
    | some _ => acc1
    | none =>
      if dryRun then { acc1 with killed := acc1.killed + 1 }
      else
        let acc2 := { acc1 with signals := acc1.signals ++ [(proc.pid, 15)] }
        match kill proc.pid 15 with
        | some e => { acc2 with lastErr := some e }
        | none => { acc2 with killed := acc2.killed + 1 }

/-- The Fix-time registry (`panePIDSet` in the source): freshly listed pane
PIDs plus tmux server PIDs. -/
def fixRegistry (panePIDs serverPIDs : List Nat) : Nat → Bool :=
  fun q => (panePIDs ++ serverPIDs).contains q

/-- Result of `OrphanProcessCheck.Fix`: the counters and signal trace, and
the error value the pass returns. -/
structure FixResult where
  killed : Nat
  skipped : Nat
  signals : List (Nat × Nat)
  err : Option (List Char)
deriving DecidableEq, Repr

/-- Embeds `OrphanProcessCheck.Fix`.  `gp` is the Fix-time `GetParentPID`
oracle, `paneRes` the freshly resampled `ListPanePIDs` result (`none` =
listing error, which aborts the pass with an error), `serverPIDs` the
`ListTmuxServerPIDs` result (its error is discarded by the source), `kill`
the `syscallKill` oracle, `orphans` the candidate list cached by `Run`. -/
def processFix (gp : Nat → Option Nat) (paneRes : Option (List Nat))
    (serverPIDs : List Nat) (kill : Nat → Nat → Option (List Char))
    (dryRun : Bool) (orphans : List ProcInfo) : FixResult :=
  if orphans.isEmpty then ⟨0, 0, [], none⟩
  else
    match paneRes with
    | none => ⟨0, 0, [], some ['E']⟩
    | some panePIDs =>
      let registry := fixRegistry panePIDs serverPIDs
      let a := orphans.foldl (procFixStep gp registry kill dryRun) ⟨0, 0, [], none⟩
      if dryRun then ⟨a.killed, a.skipped, a.signals, none⟩
      else if a.lastErr.isSome && a.killed == 0 then
        ⟨a.killed, a.skipped, a.signals, a.lastErr⟩
      else ⟨a.killed, a.skipped, a.signals, none⟩

/-! ## Daemon / activity stop passes (beads/daemon.go) -/

/-- Embeds `stopBdDaemons`.  `before` is `CountBdDaemons()` at entry,
`pids1` the first `FindByPattern` sample, `remaining` the post-SIGTERM
recount, `pids2` the rescan, `final` the last recount.  Returns
`(killed, final)` plus the trace of `SignalAll` broadcasts `(pids, sig)`.
The killed count is `before - final` clamped at zero. -/
def stopBdDaemons (before : Int) (pids1 : List Int) (remaining : Int)
    (pids2 : List Int) (final : Int) (force : Bool) :
    Int × Int × List (List Int × Int) :=
  if before = 0 then (0, 0, [])
  else
    let sigs :=
      if force then [(pids1, (9 : Int))]
      else (pids1, (15 : Int)) :: (if remaining > 0 then [(pids2, (9 : Int))] else [])
    let killed := before - final
    (if killed < 0 then 0 else killed, final, sigs)

/-- Embeds `stopBdActivityProcesses`; identical control flow to
`stopBdDaemons` over the `"bd activity"` pattern. -/
def stopBdActivityProcesses (before : Int) (pids1 : List Int) (remaining : Int)
    (pids2 : List Int) (final : Int) (force : Bool) :
    Int × Int × List (List Int × Int) :=
  if before = 0 then (0, 0, [])
  else
    let sigs :=
      if force then [(pids1, (9 : Int))]
      else (pids1, (15 : Int)) :: (if remaining > 0 then [(pids2, (9 : Int))] else [])
    let killed := before - final
    (if killed < 0 then 0 else killed, final, sigs)

/-! ## Pattern scan (proc.go `CountByPattern` / `FindByPattern`) -/

/-- One `/proc` directory entry as seen by `os.ReadDir`. -/
structure DirEntry where
  name : List Char
  isDir : Bool
deriving DecidableEq, Repr

/-- `strconv.Atoi` restricted to the non-negative digit strings that occur
as `/proc` PID directory names; anything else is a parse error. -/
def atoiL (s : List Char) : Option Nat :=
  if !(s == []) && s.all (fun c => c.isDigit) then
    some (s.foldl (fun a c => a * 10 + (c.toNat - 48)) 0)
  else none

/-- Embeds `CountByPattern`: scan the `/proc` listing (`none` = ReadDir
error, count 0), keep PID directories, and count entries whose command line
(`cmdline pid`, empty on read failure) contains the pattern. -/
def countByPattern (dir : Option (List DirEntry)) (cmdline : Nat → List Char)
    (pattern : List Char) : Nat :=
  match dir with
  | none => 0
  | some entries =>
    entries.foldl
      (fun count e =>
        if !e.isDir then count
        else
          match atoiL e.name with
          | none => count
          | some pid => if containsL (cmdline pid) pattern then count + 1 else count)
      0

/-- Embeds `FindByPattern`: same scan as `countByPattern`, collecting the
matching PIDs instead of counting them. -/
def findByPattern (dir : Option (List DirEntry)) (cmdline : Nat → List Char)
    (pattern : List Char) : List Nat :=
  match dir with
  | none => []
  | some entries =>
    entries.foldl
      (fun pids e =>
        if !e.isDir then pids
        else
          match atoiL e.name with
          | none => pids
          | some pid => if containsL (cmdline pid) pattern then pids ++ [pid] else pids)
      []

/-! ## Process table and `GetAllDescendants` (proc.go)

The kernel process table is modelled as a finite list of pid/ppid records.
`GetChildren(pid)` reads the kernel's child index, i.e. exactly the records
whose parent is `pid`.  `GetAllDescendants` is the Go recursion; since the
Go function has no depth cap and would recurse forever on a corrupted table
with cyclic child records, the embedding takes an explicit depth budget and
returns `none` when the budget is exceeded — `some l` means the Go
recursion terminates (within that stack depth) with result `l`. -/

/-- One record of the sampled process table. -/
structure ProcRec where
  pid : Nat
  ppid : Nat
deriving DecidableEq, Repr

/-- Embeds `GetChildren(pid)`: the PIDs whose parent record points at
`pid` (the kernel-maintained `children` index). -/
def childrenF (t : List ProcRec) (pid : Nat) : List Nat :=
  (t.filter (fun r => r.ppid == pid)).map (fun r => r.pid)

/-- The parent of `p` in the table, if `p` has a record. -/
def parentOf (t : List ProcRec) (p : Nat) : Option Nat :=
  (t.find? (fun r => r.pid == p)).map (fun r => r.ppid)

/-- Embeds `GetAllDescendants(pid)` with an explicit depth budget:
`none` when the Go recursion would exceed `fuel` nested calls, otherwise
`some` of the deepest-first PID list the Go code returns (for each child:
the child's own descendants first, then the child). -/
def descF (t : List ProcRec) : Nat → Nat → Option (List Nat)
  | 0, _ => none
  | fuel + 1, pid =>
    (childrenF t pid).foldr
      (fun c acc =>
        match descF t fuel c with
        | none => none
        | some lc =>
          match acc with
          | none => none
          | some ls => some (lc ++ c :: ls))
      (some [])

/-- The loop of `GetAllDescendants` over a child list at one depth level. -/
def descChildren (t : List ProcRec) (fuel : Nat) (cs : List Nat) :
    Option (List Nat) :=
  cs.foldr
    (fun c acc =>
      match descF t fuel c with
      | none => none
      | some lc =>
        match acc with
        | none => none
        | some ls => some (lc ++ c :: ls))
    (some [])

/-- `n`-fold parent lookup: `iterParent t n p` is the `n`-th ancestor of
`p` in the table (`some p` for `n = 0`), or `none` when the chain leaves
the table first. -/
def iterParent (t : List ProcRec) : Nat → Nat → Option Nat
  | 0, p => some p
  | n + 1, p =>
    match parentOf t p with
    | none => none
    | some q => iterParent t n q

/-- `a` is a strict ancestor of `d` in the table: some positive number of
parent steps from `d` reaches `a`. -/
def Anc (t : List ProcRec) (a d : Nat) : Prop :=
  ∃ n : Nat, iterParent t (n + 1) d = some a

/-! ## Concrete sample inputs used by counterexamples and witnesses -/

/-- The session name `gt-my-rig-crew-joe`: a crew member of the rig
`my-rig`, whose rig name contains a hyphen. -/
def sessHyphen : List Char := ("gt-my-rig-crew-joe").toList

/-- A pathological (corrupted) process table whose single child record
forms a cycle: PID 2 is listed as its own child. -/
def cycTable : List ProcRec := [⟨2, 2⟩]

/-- A straight parent chain 0 ← 1 ← 2 ← 3 (each record is `⟨pid, ppid⟩`). -/
def chainTable : List ProcRec := [⟨1, 0⟩, ⟨2, 1⟩, ⟨3, 2⟩]

/-- A synthetic `GetParentPID` oracle for an ancestor chain of depth 20
with PIDs 100 → 101 → … → 120 and no tmux ancestor anywhere. -/
def gpChain20 : Nat → Option Nat :=
  fun n => if 100 ≤ n && n < 120 then some (n + 1) else none

/-- The candidate process at the bottom of the depth-20 chain. -/
def procChain : ProcInfo := ⟨100, 101, ['c', 'l', 'a', 'u', 'd', 'e']⟩

/-- A per-PID presence state in which PID 5 exists but refuses the probe
(EPERM) and everything else is absent. -/
def stForbidden : Nat → ProcPresence :=
  fun p => if p = 5 then .forbidden else .absent

/-- Fix-time parent oracle for the re-verification witness: the cached
candidate PID 100 now has parent 5 (a pane PID). -/
def gpReparented : Nat → Option Nat :=
  fun n => if n = 100 then some 5 else none

/-- The single cached candidate used by the re-verification witness. -/
def orphansOne : List ProcInfo := [⟨100, 7, ['c', 'l', 'a', 'u', 'd', 'e']⟩]

/-- Kill oracle whose SIGTERM deliveries always fail. -/
def killTermFails : Nat → Nat → Option (List Char) :=
  fun _ sig => if sig = 15 then some ['E'] else none

/-- Session kill oracle that fails exactly on `gt-x-b`. -/
def killSecondFails : List Char → Option (List Char) :=
  fun s => if s == ("gt-x-b").toList then some ['b', 'o', 'o', 'm'] else none

/-! ## Ancestry toolkit -/

theorem iterParent_add (t : List ProcRec) (m n p : Nat) :
    iterParent t (m + n) p =
      match iterParent t m p with
      | none => none
      | some q => iterParent t n q := by
  induction m generalizing p with
  | zero => simp [iterParent]
  | succ m ih =>
    have : m + 1 + n = (m + n) + 1 := by omega
    rw [this]
    simp only [iterParent]
    cases parentOf t p with
    | none => rfl
    | some q => exact ih q

theorem anc_step {t : List ProcRec} {a d : Nat}
    (h : parentOf t d = some a) : Anc t a d :=
  ⟨0, by simp [iterParent, h]⟩

theorem anc_trans {t : List ProcRec} {a b c : Nat}
    (hab : Anc t a b) (hbc : Anc t b c) : Anc t a c := by
  obtain ⟨m, hm⟩ := hab
  obtain ⟨n, hn⟩ := hbc
  refine ⟨n + 1 + m, ?_⟩
  have : n + 1 + m + 1 = (n + 1) + (m + 1) := by omega
  rw [this, iterParent_add t (n + 1) (m + 1) c, hn]
  exact hm

theorem anc_comparable {t : List ProcRec} {x y d : Nat}
    (hx : Anc t x d) (hy : Anc t y d) :
    x = y ∨ Anc t x y ∨ Anc t y x := by
  obtain ⟨m, hm⟩ := hx
  obtain ⟨n, hn⟩ := hy
  rcases Nat.le_total m n with h | h
  · -- the chain reaches x first, then continues to y
    have hsplit : n + 1 = (m + 1) + (n - m) := by omega
    rw [hsplit, iterParent_add t (m + 1) (n - m) d, hm] at hn
    rcases Nat.eq_zero_or_pos (n - m) with hz | hpos
    · rw [hz] at hn
      simp [iterParent] at hn
      exact Or.inl hn
    · obtain ⟨k, hk⟩ := Nat.exists_eq_add_of_lt hpos
      rw [hk] at hn
      simp only [Nat.zero_add] at hn
      exact Or.inr (Or.inr ⟨k, hn⟩)
  · have hsplit : m + 1 = (n + 1) + (m - n) := by omega
    rw [hsplit, iterParent_add t (n + 1) (m - n) d, hn] at hm
    rcases Nat.eq_zero_or_pos (m - n) with hz | hpos
    · rw [hz] at hm
      simp [iterParent] at hm
      exact Or.inl hm.symm
    · obtain ⟨k, hk⟩ := Nat.exists_eq_add_of_lt hpos
      rw [hk] at hm
      simp only [Nat.zero_add] at hm
      exact Or.inr (Or.inl ⟨k, hm⟩)

theorem anc_sibling {t : List ProcRec} {c c' pid : Nat}
    (hc : parentOf t c = some pid) (hc' : parentOf t c' = some pid)
    (h : Anc t c c') : Anc t c c := by
  obtain ⟨n, hn⟩ := h
  simp only [iterParent, hc'] at hn
  cases n with
  | zero =>
    simp [iterParent] at hn
    subst hn
    exact anc_step hc
  | succ k =>
    exact anc_trans ⟨k, hn⟩ (anc_step hc)

/-! ## Structural lemmas about the descendant enumeration -/

theorem descF_zero (t : List ProcRec) (p : Nat) : descF t 0 p = none := rfl

theorem descF_succ (t : List ProcRec) (fuel p : Nat) :
    descF t (fuel + 1) p = descChildren t fuel (childrenF t p) := rfl

theorem descChildren_nil (t : List ProcRec) (fuel : Nat) :
    descChildren t fuel [] = some [] := rfl

theorem descChildren_cons (t : List ProcRec) (fuel : Nat) (c : Nat)
    (cs : List Nat) :
    descChildren t fuel (c :: cs) =
      match descF t fuel c with
      | none => none
      | some lc =>
        match descChildren t fuel cs with
        | none => none
        | some ls => some (lc ++ c :: ls) := rfl

theorem parentOf_mem_childrenF {t : List ProcRec} {x p : Nat}
    (h : parentOf t x = some p) : x ∈ childrenF t p := by
  unfold parentOf at h
  cases hf : t.find? (fun r => r.pid == x) with
  | none => rw [hf] at h; simp at h
  | some r =>
    rw [hf] at h
    simp at h
    have hmem : r ∈ t := List.mem_of_find?_eq_some hf
    have hpid : r.pid = x := by
      have := List.find?_some hf
      simpa using this
    unfold childrenF
    refine List.mem_map.mpr ⟨r, ?_, hpid⟩
    refine List.mem_filter.mpr ⟨hmem, ?_⟩
    simp [h]

theorem mem_childrenF_parentOf {t : List ProcRec} {x p : Nat}
    (hnd : (t.map ProcRec.pid).Nodup) (h : x ∈ childrenF t p) :
    parentOf t x = some p := by
  unfold childrenF at h
  obtain ⟨r, hrf, hrx⟩ := List.mem_map.mp h
  obtain ⟨hrt, hrp⟩ := List.mem_filter.mp hrf
  have hrp' : r.ppid = p := by simpa using hrp
  have hsome : (t.find? (fun r => r.pid == x)).isSome := by
    rw [List.find?_isSome]
    exact ⟨r, hrt, by simp [hrx]⟩
  obtain ⟨r', hr'⟩ := Option.isSome_iff_exists.mp hsome
  have hr't : r' ∈ t := List.mem_of_find?_eq_some hr'
  have hr'x : r'.pid = x := by
    have := List.find?_some hr'
    simpa using this
  have : r' = r := List.inj_on_of_nodup_map hnd hr't hrt (by rw [hr'x, hrx])
  unfold parentOf
  rw [hr', this]
  simp [hrp']

theorem childrenF_nodup {t : List ProcRec} {p : Nat}
    (hnd : (t.map ProcRec.pid).Nodup) : (childrenF t p).Nodup := by
  unfold childrenF
  exact hnd.sublist ((List.filter_sublist (l := t)).map ProcRec.pid)

theorem descChildren_completes {t : List ProcRec} {fuel : Nat}
    {cs : List Nat} {L : List Nat} {c : Nat}
    (h : descChildren t fuel cs = some L) (hc : c ∈ cs) :
    ∃ lc, descF t fuel c = some lc := by
  induction cs generalizing L with
  | nil => cases hc
  | cons c0 cs ih =>
    rw [descChildren_cons] at h
    cases hd : descF t fuel c0 with
    | none => rw [hd] at h; cases h
    | some lc0 =>
      rw [hd] at h
      cases hrest : descChildren t fuel cs with
      | none => rw [hrest] at h; cases h
      | some ls =>
        rcases List.mem_cons.mp hc with rfl | hc'
        · exact ⟨lc0, hd⟩
        · exact ih hrest hc'

theorem descChildren_mem {t : List ProcRec} {fuel : Nat}
    {cs : List Nat} {L : List Nat} {x : Nat}
    (h : descChildren t fuel cs = some L) (hx : x ∈ L) :
    ∃ c ∈ cs, x = c ∨ ∃ lc, descF t fuel c = some lc ∧ x ∈ lc := by
  induction cs generalizing L with
  | nil =>
    rw [descChildren_nil] at h
    cases h
    cases hx
  | cons c0 cs ih =>
    rw [descChildren_cons] at h
    cases hd : descF t fuel c0 with
    | none => rw [hd] at h; cases h
    | some lc0 =>
      rw [hd] at h
      cases hrest : descChildren t fuel cs with
      | none => rw [hrest] at h; cases h
      | some ls =>
        rw [hrest] at h
        cases h
        rcases List.mem_append.mp hx with hx1 | hx2
        · exact ⟨c0, List.mem_cons_self _ _, Or.inr ⟨lc0, hd, hx1⟩⟩
        · rcases List.mem_cons.mp hx2 with rfl | hx3
          · exact ⟨x, List.mem_cons_self _ _, Or.inl rfl⟩
          · obtain ⟨c, hcmem, hcase⟩ := ih hrest hx3
            exact ⟨c, List.mem_cons_of_mem _ hcmem, hcase⟩

theorem descF_descend_child {t : List ProcRec} {fuel : Nat} {p x : Nat}
    {l : List Nat} (h : descF t fuel p = some l)
    (hx : parentOf t x = some p) :
    ∃ fuel' l', fuel' < fuel ∧ descF t fuel' x = some l' := by
  cases fuel with
  | zero => rw [descF_zero] at h; cases h
  | succ g =>
    rw [descF_succ] at h
    obtain ⟨lc, hlc⟩ := descChildren_completes h (parentOf_mem_childrenF hx)
    exact ⟨g, lc, Nat.lt_succ_self g, hlc⟩

theorem descF_anc_descend {t : List ProcRec} {p x : Nat}
    (hanc : Anc t p x) :
    ∀ fuel l, descF t fuel p = some l →
      ∃ fuel' l', fuel' < fuel ∧ descF t fuel' x = some l' := by
  obtain ⟨n, hn⟩ := hanc
  induction n generalizing x with
  | zero =>
    intro fuel l h
    simp only [iterParent] at hn
    cases hpx : parentOf t x with
    | none => rw [hpx] at hn; cases hn
    | some q =>
      rw [hpx] at hn
      simp [iterParent] at hn
      subst hn
      exact descF_descend_child h hpx
  | succ k ih =>
    intro fuel l h
    simp only [iterParent] at hn
    cases hpx : parentOf t x with
    | none => rw [hpx] at hn; cases hn
    | some z =>
      rw [hpx] at hn
      obtain ⟨fuel', l', hlt, hz⟩ := ih hn fuel l h
      obtain ⟨fuel'', l'', hlt', hx'⟩ := descF_descend_child hz hpx
      exact ⟨fuel'', l'', Nat.lt_trans hlt' hlt, hx'⟩

/-- If the Go recursion starting at `x` terminates, `x` is not its own
ancestor: each ancestor level strictly lowers the needed depth budget. -/
theorem descF_no_self {t : List ProcRec} :
    ∀ fuel, ∀ x l, descF t fuel x = some l → ¬ Anc t x x := by
  intro fuel
  induction fuel using Nat.strong_induction_on with
  | _ fuel ih =>
    intro x l h hanc
    obtain ⟨fuel', l', hlt, h'⟩ := descF_anc_descend hanc fuel l h
    exact ih fuel' hlt x l' h' hanc

theorem descF_mem_descend {t : List ProcRec} :
    ∀ fuel p l x, descF t fuel p = some l → x ∈ l →
      ∃ fuel' l', fuel' < fuel ∧ descF t fuel' x = some l' := by
  intro fuel
  induction fuel using Nat.strong_induction_on with
  | _ fuel ih =>
    intro p l x h hx
    cases fuel with
    | zero => rw [descF_zero] at h; cases h
    | succ g =>
      rw [descF_succ] at h
      obtain ⟨c, _, hcase⟩ := descChildren_mem h hx
      rcases hcase with rfl | ⟨lc, hlc, hxlc⟩
      · obtain ⟨lc, hlc⟩ := descChildren_completes h (by assumption)
        exact ⟨g, lc, Nat.lt_succ_self g, hlc⟩
      · obtain ⟨fuel', l', hlt, h'⟩ := ih g (Nat.lt_succ_self g) c lc x hlc hxlc
        exact ⟨fuel', l', Nat.lt_trans hlt (Nat.lt_succ_self g), h'⟩

/-- Members of a completed enumeration are not their own ancestors. -/
theorem descF_mem_no_self {t : List ProcRec} {fuel p : Nat} {l : List Nat}
    {x : Nat} (h : descF t fuel p = some l) (hx : x ∈ l) : ¬ Anc t x x := by
  obtain ⟨fuel', l', _, h'⟩ := descF_mem_descend fuel p l x h hx
  exact descF_no_self fuel' x l' h'

/-- Every member of a completed enumeration is a strict descendant of the
root (needs unique PIDs to read the parent back off the child index). -/
theorem descF_mem_anc {t : List ProcRec}
    (hnd : (t.map ProcRec.pid).Nodup) :
    ∀ fuel p l x, descF t fuel p = some l → x ∈ l → Anc t p x := by
  intro fuel
  induction fuel using Nat.strong_induction_on with
  | _ fuel ih =>
    intro p l x h hx
    cases fuel with
    | zero => rw [descF_zero] at h; cases h
    | succ g =>
      rw [descF_succ] at h
      obtain ⟨c, hcmem, hcase⟩ := descChildren_mem h hx
      have hcp : parentOf t c = some p := mem_childrenF_parentOf hnd hcmem
      rcases hcase with rfl | ⟨lc, hlc, hxlc⟩
      · exact anc_step hcp
      · exact anc_trans (anc_step hcp) (ih g (Nat.lt_succ_self g) c lc x hlc hxlc)

/-- The sibling-block part of the deepest-first invariant: the concatenated
blocks `desc c ++ [c]` over the children `cs` of one parent `q` contain no
pair in which an ancestor appears before one of its descendants. -/
theorem descChildren_pairwise {t : List ProcRec}
    (hnd : (t.map ProcRec.pid).Nodup) (fuel : Nat)
    (ihdesc : ∀ p l, descF t fuel p = some l →
      l.Pairwise (fun x y => ¬ Anc t x y))
    (q : Nat) :
    ∀ cs L, (∀ c ∈ cs, parentOf t c = some q) → cs.Nodup →
      descChildren t fuel cs = some L →
      L.Pairwise (fun x y => ¬ Anc t x y) := by
  intro cs
  induction cs with
  | nil =>
    intro L _ _ h
    rw [descChildren_nil] at h
    cases h
    exact List.Pairwise.nil
  | cons c0 cs ih =>
    intro L hpar hndcs h
    rw [descChildren_cons] at h
    cases hd : descF t fuel c0 with
    | none => rw [hd] at h; cases h
    | some lc0 =>
      rw [hd] at h
      cases hrest : descChildren t fuel cs with
      | none => rw [hrest] at h; cases h
      | some ls =>
        rw [hrest] at h
        cases h
        -- facts about the head child
        have hparc0 : parentOf t c0 = some q := hpar c0 (List.mem_cons_self _ _)
        have hnoself0 : ¬ Anc t c0 c0 := descF_no_self fuel c0 lc0 hd
        have hc0notin : c0 ∉ cs := (List.nodup_cons.mp hndcs).1
        have hndcs' : cs.Nodup := (List.nodup_cons.mp hndcs).2
        have hpar' : ∀ c ∈ cs, parentOf t c = some q :=
          fun c hc => hpar c (List.mem_cons_of_mem _ hc)
        -- single sibling-cycle refutation used below: c0 cannot be an
        -- ancestor of a sibling
        have hsib0 : ∀ c' ∈ cs, ¬ Anc t c0 c' := by
          intro c' hc' hA
          exact hnoself0 (anc_sibling hparc0 (hpar' c' hc') hA)
        have hsib0' : ∀ c' ∈ cs, ¬ Anc t c' c0 := by
          intro c' hc' hA
          obtain ⟨lc', hlc'⟩ := descChildren_completes hrest hc'
          exact descF_no_self fuel c' lc' hlc'
            (anc_sibling (hpar' c' hc') hparc0 hA)
        -- any member of the tail blocks is a sibling or a strict
        -- descendant of a sibling
        have htail : ∀ y ∈ ls, ∀ x, Anc t c0 x ∨ x = c0 → ¬ Anc t x y := by
          intro y hy x hx hA
          obtain ⟨c', hc', hcase⟩ := descChildren_mem hrest hy
          have hAc0y : Anc t c0 y := by
            rcases hx with hx | rfl
            · exact anc_trans hx hA
            · exact hA
          rcases hcase with rfl | ⟨lc', hlc', hylc'⟩
          · exact hsib0 y hc' hAc0y
          · have hAc'y : Anc t c' y := descF_mem_anc hnd fuel c' lc' y hlc' hylc'
            rcases anc_comparable hAc0y hAc'y with rfl | hcc' | hc'c
            · exact hc0notin hc'
            · exact hsib0 c' hc' hcc'
            · exact hsib0' c' hc' hc'c
        refine List.pairwise_append.mpr ⟨ihdesc c0 lc0 hd, ?_, ?_⟩
        · -- pairwise on c0 :: ls
          refine List.pairwise_cons.mpr ⟨?_, ?_⟩
          · intro y hy hA
            exact htail y hy c0 (Or.inr rfl) hA
          · exact ih ls hpar' hndcs' hrest
        · -- elements of the head block come before c0 and the tail blocks
          intro x hx y hy hA
          have hAc0x : Anc t c0 x := descF_mem_anc hnd fuel c0 lc0 x hd hx
          rcases List.mem_cons.mp hy with rfl | hy'
          · -- x ∈ desc c0 cannot be an ancestor of c0 itself
            exact hnoself0 (anc_trans hAc0x hA)
          · exact htail y hy' x (Or.inl hAc0x) hA

/-- Deepest-first invariant for the whole enumeration: in any completed
`GetAllDescendants` result, no PID is followed by one of its own strict
descendants. -/
theorem descF_pairwise {t : List ProcRec}
    (hnd : (t.map ProcRec.pid).Nodup) :
    ∀ fuel p l, descF t fuel p = some l →
      l.Pairwise (fun x y => ¬ Anc t x y) := by
  intro fuel
  induction fuel with
  | zero => intro p l h; rw [descF_zero] at h; cases h
  | succ g ihg =>
    intro p l h
    rw [descF_succ] at h
    exact descChildren_pairwise hnd g ihg p (childrenF t p) l
      (fun c hc => mem_childrenF_parentOf hnd hc) (childrenF_nodup hnd) h

/-- Claim C6: for every root PID and every parent/child process table (with
unique PIDs, as in a real process table), the completed `GetAllDescendants`
enumeration is deepest-first: whenever `a` is a strict ancestor of `d` in
the table and both appear in the result, `d` appears before `a` — i.e. in
any decomposition of the result at `a`, `d` lies in the prefix. -/
theorem getAllDescendants_deepest_first
    (t : List ProcRec) (fuel root : Nat) (l l1 l2 : List Nat) (a d : Nat)
    (hnd : (t.map ProcRec.pid).Nodup)
    (h : descF t fuel root = some l)
    (hanc : Anc t a d)
    (hsplit : l = l1 ++ a :: l2)
    (hdl : d ∈ l) :
    d ∈ l1 := by
  subst hsplit
  rcases List.mem_append.mp hdl with h1 | h2
  · exact h1
  · rcases List.mem_cons.mp h2 with rfl | h3
    · -- d = a would make a its own strict ancestor
      have ha : d ∈ l1 ++ d :: l2 :=
        List.mem_append.mpr (Or.inr (List.mem_cons_self _ _))
      exact absurd hanc (descF_mem_no_self h ha)
    · -- d after a contradicts the deepest-first pairwise invariant
      have hp := descF_pairwise hnd fuel root _ h
      have hp2 := (List.pairwise_append.mp hp).2.1
      exact absurd hanc ((List.pairwise_cons.mp hp2).1 d h3)

/-- Witness for C6 on the chain 0 ← 1 ← 2 ← 3: the enumeration from root 0
is `[3, 2, 1]`, and the grandchild 3 appears before its ancestor 2. -/
theorem getAllDescendants_deepest_first_witness : (3 : Nat) ∈ [3] :=
  getAllDescendants_deepest_first chainTable 10 0 [3, 2, 1] [3] [1] 2 3
    (by decide) (by decide) ⟨0, by decide⟩ rfl (by decide)

/-- On the cyclic table the recursion never completes: every depth budget
is exhausted. -/
theorem cycTable_descF_none : ∀ fuel, descF cycTable fuel 2 = none := by
  intro fuel
  induction fuel with
  | zero => rfl
  | succ g ih =>
    rw [descF_succ]
    have hch : childrenF cycTable 2 = [2] := by decide
    rw [hch, descChildren_cons, ih]

/-- Counterexample to claim C7: `GetAllDescendants` does not terminate for
every process table — on the concrete corrupted table whose child record
forms a cycle (PID 2 listed as its own child) the recursion exceeds every
depth budget, i.e. no finite recursion depth produces a result. -/
theorem getAllDescendants_cycle_diverges :
    ¬ ∃ fuel l, descF cycTable fuel 2 = some l := by
  rintro ⟨fuel, l, h⟩
  induction fuel generalizing l with
  | zero => rw [descF_zero] at h; cases h
  | succ g ih =>
    rw [descF_succ] at h
    have hch : childrenF cycTable 2 = [2] := by decide
    rw [hch, descChildren_cons] at h
    cases hg : descF cycTable g 2 with
    | none => rw [hg] at h; cases h
    | some lg => exact ih lg hg

/-- Claim C7 as amended: `GetAllDescendants` has no defensive recursion
depth cap — on a pathological table whose child records form a cycle the
recursion never bottoms out, exceeding every finite depth budget. -/
theorem getAllDescendants_no_depth_cap :
    ∀ fuel, descF cycTable fuel 2 = none :=
  cycTable_descF_none

/-! ## Session name grammar and the session Fix pass -/

theorem splitDash_ne_nil : ∀ s : List Char, splitDash s ≠ [] := by
  intro s
  induction s with
  | nil => simp [splitDash]
  | cons c rest ih =>
    rw [splitDash]
    by_cases hc : c = '-'
    · simp [hc]
    · simp only [if_neg hc]
      cases hrest : splitDash rest with
      | nil => simp
      | cons p ps => simp

theorem splitDash_append {l1 l2 : List Char} (h : '-' ∉ l1) :
    splitDash (l1 ++ '-' :: l2) = l1 :: splitDash l2 := by
  induction l1 with
  | nil => simp [splitDash]
  | cons c cs ih =>
    have hc : c ≠ '-' := fun hh => h (hh ▸ List.mem_cons_self c cs)
    have h' : '-' ∉ cs := fun hh => h (List.mem_cons_of_mem c hh)
    rw [List.cons_append, splitDash, if_neg hc, ih h']

/-- The kill list of `OrphanSessionCheck.Fix` is exactly the cached orphan
list with crew sessions filtered out, in order. -/
theorem sessionFix_kills (killSession : List Char → Option (List Char))
    (orphanSessions : List (List Char)) :
    (sessionFix killSession orphanSessions).1 =
      orphanSessions.filter (fun s => !(isCrewSession s)) := by
  suffices hgen : ∀ (l : List (List Char)) (acc : List (List Char) × Option (List Char)),
      (l.foldl
        (fun acc sess =>
          if isCrewSession sess then acc
          else
            match killSession sess with
            | none => (acc.1 ++ [sess], acc.2)
            | some e => (acc.1 ++ [sess], some e))
        acc).1 = acc.1 ++ l.filter (fun s => !(isCrewSession s)) by
    simpa [sessionFix] using hgen orphanSessions ([], none)
  intro l
  induction l with
  | nil => intro acc; simp
  | cons s rest ih =>
    intro acc
    simp only [List.foldl_cons, List.filter_cons]
    by_cases hcrew : isCrewSession s
    · simp only [if_pos hcrew, hcrew]
      simpa using ih acc
    · simp only [if_neg hcrew, eq_false_of_ne_true hcrew]
      cases hk : killSession s with
      | none => simpa using ih (acc.1 ++ [s], acc.2)
      | some e => simpa using ih (acc.1 ++ [s], some e)

/-- The error returned by `OrphanSessionCheck.Fix` is set exactly when some
attempted (non-crew) kill failed — successes never clear it. -/
theorem sessionFix_err (killSession : List Char → Option (List Char))
    (orphanSessions : List (List Char)) :
    (sessionFix killSession orphanSessions).2.isSome = true ↔
      ∃ s ∈ orphanSessions, isCrewSession s = false ∧
        (killSession s).isSome = true := by
  suffices hgen : ∀ (l : List (List Char)) (acc : List (List Char) × Option (List Char)),
      (l.foldl
        (fun acc sess =>
          if isCrewSession sess then acc
          else
            match killSession sess with
            | none => (acc.1 ++ [sess], acc.2)
            | some e => (acc.1 ++ [sess], some e))
        acc).2.isSome = true ↔
        (acc.2.isSome = true ∨
          ∃ s ∈ l, isCrewSession s = false ∧ (killSession s).isSome = true) by
    rw [sessionFix]
    rw [hgen orphanSessions ([], none)]
    simp
  intro l
  induction l with
  | nil => intro acc; simp
  | cons s rest ih =>
    intro acc
    simp only [List.foldl_cons]
    by_cases hcrew : isCrewSession s
    · rw [if_pos hcrew, ih acc]
      constructor
      · rintro (h | h)
        · exact Or.inl h
        · obtain ⟨u, hu, hcase⟩ := h
          exact Or.inr ⟨u, List.mem_cons_of_mem s hu, hcase⟩
      · rintro (h | h)
        · exact Or.inl h
        · obtain ⟨u, hu, hc, hk⟩ := h
          rcases List.mem_cons.mp hu with rfl | hu'
          · rw [hcrew] at hc; cases hc
          · exact Or.inr ⟨u, hu', hc, hk⟩
    · rw [if_neg hcrew]
      cases hk : killSession s with
      | none =>
        rw [ih (acc.1 ++ [s], acc.2)]
        constructor
        · rintro (h | h)
          · exact Or.inl h
          · obtain ⟨u, hu, hcase⟩ := h
            exact Or.inr ⟨u, List.mem_cons_of_mem s hu, hcase⟩
        · rintro (h | h)
          · exact Or.inl h
          · obtain ⟨u, hu, hc, hk'⟩ := h
            rcases List.mem_cons.mp hu with rfl | hu'
            · rw [hk] at hk'; cases hk'
            · exact Or.inr ⟨u, hu', hc, hk'⟩
      | some e =>
        rw [ih (acc.1 ++ [s], some e)]
        simp only [Option.isSome_some, true_or, true_iff]
        exact Or.inr ⟨s, List.mem_cons_self s rest,
          eq_false_of_ne_true hcrew, by rw [hk]; rfl⟩

/-- A session built by the crew grammar `gt-<rig>-crew-<name>` is
recognized by `isCrewSession` whenever the rig name is hyphen-free. -/
theorem isCrewSession_grammar (rig name : List Char) (h : '-' ∉ rig) :
    isCrewSession
      (['g', 't'] ++ '-' :: (rig ++ '-' :: (['c', 'r', 'e', 'w'] ++ '-' :: name)))
      = true := by
  have hgt : ('-' : Char) ∉ ['g', 't'] := by decide
  have hcrew : ('-' : Char) ∉ ['c', 'r', 'e', 'w'] := by decide
  have hsplit :
      splitDash
        (['g', 't'] ++ '-' :: (rig ++ '-' :: (['c', 'r', 'e', 'w'] ++ '-' :: name)))
        = ['g', 't'] :: rig :: ['c', 'r', 'e', 'w'] :: splitDash name := by
    rw [splitDash_append hgt, splitDash_append h, splitDash_append hcrew]
  have hpos : 0 < (splitDash name).length :=
    List.length_pos.mpr (splitDash_ne_nil name)
  rw [isCrewSession]
  simp only [hsplit, List.length_cons, List.getD_cons_zero, List.getD_cons_succ]
  simp only [Bool.and_eq_true, decide_eq_true_eq, beq_iff_eq]
  refine ⟨⟨by omega, by trivial⟩, by trivial⟩

/-- Counterexample to claim C1: with the hyphenated rig name `my-rig`, the
session `gt-my-rig-crew-joe` matches the crew grammar
`gt-<rig>-crew-<name>` (shown by the first conjunct), `Run` classifies it
as an orphan even though its rig is listed as valid, and `Fix` issues a
kill for it. -/
theorem crew_hyphen_rig_killed :
    sessHyphen =
        ("gt-").toList ++ ("my-rig").toList ++ ("-crew-").toList ++ ("joe").toList
      ∧ (sessionFix (fun _ => none)
          (runOrphans [sessHyphen] [("my-rig").toList]
            ("gt-town-mayor").toList ("gt-town-deacon").toList)).1
        = [sessHyphen] := by
  constructor
  · decide
  · decide

/-- Claim C1 as amended: the Fix pass of the orphan-session remediation
never issues a kill for a session matching the crew grammar
`gt-<rig>-crew-<name>` provided the rig name contains no hyphen (for any
name, any kill oracle, and any cached orphan list); sessions whose rig
name itself contains a hyphen are not recognized by the crew check and are
not protected. -/
theorem crew_protection_hyphen_free (rig name : List Char)
    (killSession : List Char → Option (List Char))
    (orphanSessions : List (List Char)) (h : '-' ∉ rig) :
    (['g', 't'] ++ '-' :: (rig ++ '-' :: (['c', 'r', 'e', 'w'] ++ '-' :: name)))
      ∉ (sessionFix killSession orphanSessions).1 := by
  rw [sessionFix_kills]
  intro hmem
  have := List.of_mem_filter hmem
  rw [isCrewSession_grammar rig name h] at this
  cases this

/-- Witness for the amended C1 at rig `my`, name `joe`: the crew session is
not killed even when it is the whole cached orphan list. -/
theorem crew_protection_hyphen_free_witness :
    (['g', 't'] ++ '-' :: (['m', 'y'] ++ '-' :: (['c', 'r', 'e', 'w'] ++ '-' :: ['j', 'o', 'e'])))
      ∉ (sessionFix (fun _ => none)
          [['g', 't'] ++ '-' :: (['m', 'y'] ++ '-' :: (['c', 'r', 'e', 'w'] ++ '-' :: ['j', 'o', 'e']))]).1 :=
  crew_protection_hyphen_free ['m', 'y'] ['j', 'o', 'e'] (fun _ => none)
    [['g', 't'] ++ '-' :: (['m', 'y'] ++ '-' :: (['c', 'r', 'e', 'w'] ++ '-' :: ['j', 'o', 'e']))]
    (by decide)

/-! ## Fix error semantics (claims C3, C4) -/

/-- Per-candidate error propagation of the orphan-process Fix loop: a set
`lastErr` comes from a failed SIGTERM on some candidate of the loop. -/
theorem procFixStep_lastErr (gp : Nat → Option Nat) (tmux : Nat → Bool)
    (kill : Nat → Nat → Option (List Char)) (dryRun : Bool)
    (acc : FixAcc) (q : ProcInfo)
    (h : (procFixStep gp tmux kill dryRun acc q).lastErr.isSome = true) :
    acc.lastErr.isSome = true ∨ (kill q.pid 15).isSome = true := by
  unfold procFixStep at h
  by_cases horph : isOrphanProcess gp tmux q
  · rw [horph] at h
    simp only [Bool.not_true, Bool.false_eq_true, if_false] at h
    cases hk0 : kill q.pid 0 with
    | some e => rw [hk0] at h; exact Or.inl h
    | none =>
      rw [hk0] at h
      by_cases hdry : dryRun
      · rw [if_pos hdry] at h; exact Or.inl h
      · rw [if_neg hdry] at h
        cases hk15 : kill q.pid 15 with
        | some e => exact Or.inr rfl
        | none => rw [hk15] at h; exact Or.inl h
  · rw [eq_false_of_ne_true horph] at h
    simp only [Bool.not_false, if_true] at h
    exact Or.inl h

/-- Folded version of `procFixStep_lastErr` over the whole candidate list. -/
theorem procFix_foldl_lastErr (gp : Nat → Option Nat) (tmux : Nat → Bool)
    (kill : Nat → Nat → Option (List Char)) (dryRun : Bool) :
    ∀ (l : List ProcInfo) (acc : FixAcc),
      (l.foldl (procFixStep gp tmux kill dryRun) acc).lastErr.isSome = true →
        acc.lastErr.isSome = true ∨ ∃ q ∈ l, (kill q.pid 15).isSome = true := by
  intro l
  induction l with
  | nil => intro acc h; exact Or.inl h
  | cons q rest ih =>
    intro acc h
    rw [List.foldl_cons] at h
    rcases ih (procFixStep gp tmux kill dryRun acc q) h with h1 | h2
    · rcases procFixStep_lastErr gp tmux kill dryRun acc q h1 with ha | hb
      · exact Or.inl ha
      · exact Or.inr ⟨q, List.mem_cons_self q rest, hb⟩
    · obtain ⟨u, hu, hku⟩ := h2
      exact Or.inr ⟨u, List.mem_cons_of_mem q hu, hku⟩

/-- Counterexample to claim C3: for the orphan-session check, with two
cached orphans `gt-x-a` and `gt-x-b` where the first kill succeeds and the
second fails, `Fix` still returns the error — exactly one attempted kill
succeeded, yet the pass fails rather than reporting partial success. -/
theorem session_fix_error_despite_success :
    ((sessionFix killSecondFails [("gt-x-a").toList, ("gt-x-b").toList]).1.filter
        (fun s => (killSecondFails s).isNone)).length = 1
    ∧ (sessionFix killSecondFails [("gt-x-a").toList, ("gt-x-b").toList]).2
        = some ['b', 'o', 'o', 'm'] := by
  constructor
  · decide
  · decide

/-- Claim C3 as amended: the orphan-process Fix (given a successful pane
listing) returns an error only when zero kills succeeded and some
individual SIGTERM failed; the orphan-session Fix, by contrast, returns
the last kill error whenever any individual kill failed, regardless of how
many kills succeeded. -/
theorem fix_error_semantics :
    (∀ (gp : Nat → Option Nat) (panePIDs serverPIDs : List Nat)
        (kill : Nat → Nat → Option (List Char)) (orphans : List ProcInfo),
      (processFix gp (some panePIDs) serverPIDs kill false orphans).err.isSome = true →
        (processFix gp (some panePIDs) serverPIDs kill false orphans).killed = 0
        ∧ ∃ q ∈ orphans, (kill q.pid 15).isSome = true)
    ∧ (∀ (killSession : List Char → Option (List Char))
        (orphanSessions : List (List Char)),
      (sessionFix killSession orphanSessions).2.isSome = true ↔
        ∃ s ∈ orphanSessions, isCrewSession s = false ∧
          (killSession s).isSome = true) := by
  constructor
  · intro gp panePIDs serverPIDs kill orphans
    by_cases hemp : orphans.isEmpty
    · intro h
      rw [processFix, if_pos hemp] at h
      cases h
    · rw [processFix, if_neg hemp]
      simp only []
      set tmux := fixRegistry panePIDs serverPIDs with htmux
      set a := orphans.foldl (procFixStep gp tmux kill false) ⟨0, 0, [], none⟩ with ha
      by_cases hcond : a.lastErr.isSome && a.killed == 0
      · rw [if_neg (by simp), if_pos hcond]
        intro h
        obtain ⟨he, hz⟩ := Bool.and_eq_true_iff.mp hcond
        constructor
        · show a.killed = 0
          simpa using hz
        · rcases procFix_foldl_lastErr gp tmux kill false orphans ⟨0, 0, [], none⟩
            (by rw [← ha]; exact he) with hfalse | hex
          · cases hfalse
          · exact hex
      · rw [if_neg (by simp), if_neg hcond]
        intro h
        cases h
  · exact sessionFix_err

/-- Witness for the amended C3: a single orphan whose SIGTERM fails gives a
failing pass with zero kills and an actual kill error. -/
theorem fix_error_semantics_witness :
    (processFix (fun _ => none) (some []) [] killTermFails false orphansOne).killed = 0
    ∧ ∃ q ∈ orphansOne, (killTermFails q.pid 15).isSome = true :=
  fix_error_semantics.1 (fun _ => none) [] [] killTermFails orphansOne (by decide)

/-- Counterexample to claim C4: PID 5 exists (it is not absent — the probe
is refused only for permission), yet `Exists` reports `false`. -/
theorem exists_eperm_false :
    stForbidden 5 ≠ ProcPresence.absent ∧ existsPid stForbidden 5 = false := by
  constructor
  · decide
  · decide

/-- Claim C4 as amended: `Exists(pid)` returns `true` exactly when the
signal-0 probe is accepted — it returns `false` both when the process does
not exist and when the process exists but the probe is refused for lack of
permission. -/
theorem exists_iff_permitted :
    ∀ (st : Nat → ProcPresence) (pid : Nat),
      existsPid st pid = true ↔ st pid = ProcPresence.permitted := by
  intro st pid
  unfold existsPid killErrno
  cases h : st pid <;> simp

/-! ## Re-verification and dry-run behavior of the orphan-process Fix -/

theorem procFixStep_skipped (gp : Nat → Option Nat) (tmux : Nat → Bool)
    (kill : Nat → Nat → Option (List Char)) (dryRun : Bool)
    (acc : FixAcc) (q : ProcInfo) :
    (procFixStep gp tmux kill dryRun acc q).skipped =
      acc.skipped + (if isOrphanProcess gp tmux q then 0 else 1) := by
  unfold procFixStep
  by_cases horph : isOrphanProcess gp tmux q
  · simp only [horph, Bool.not_true, Bool.false_eq_true, if_false, if_true]
    cases hk : kill q.pid 0 with
    | some e => simp
    | none =>
      by_cases hd : dryRun
      · simp [hd]
      · simp only [hd, if_false]
        cases kill q.pid 15 <;> simp
  · simp [eq_false_of_ne_true horph]

theorem procFixStep_signals (gp : Nat → Option Nat) (tmux : Nat → Bool)
    (kill : Nat → Nat → Option (List Char)) (dryRun : Bool)
    (acc : FixAcc) (q : ProcInfo) (p0 s : Nat)
    (h : (p0, s) ∈ (procFixStep gp tmux kill dryRun acc q).signals) :
    (p0, s) ∈ acc.signals ∨ (q.pid = p0 ∧ isOrphanProcess gp tmux q = true) := by
  unfold procFixStep at h
  by_cases horph : isOrphanProcess gp tmux q
  · simp only [horph, Bool.not_true, Bool.false_eq_true, if_false, if_true] at h
    cases hk : kill q.pid 0 with
    | some e =>
      rw [hk] at h
      simp only [List.mem_append, List.mem_singleton] at h
      rcases h with h | h
      · exact Or.inl h
      · exact Or.inr ⟨(Prod.mk.injEq _ _ _ _ ▸ h).1.symm, horph⟩
    | none =>
      rw [hk] at h
      by_cases hd : dryRun
      · rw [if_pos hd] at h
        simp only [List.mem_append, List.mem_singleton] at h
        rcases h with h | h
        · exact Or.inl h
        · exact Or.inr ⟨(Prod.mk.injEq _ _ _ _ ▸ h).1.symm, horph⟩
      · rw [if_neg hd] at h
        cases hk15 : kill q.pid 15 with
        | some e =>
          rw [hk15] at h
          simp only [List.mem_append, List.mem_singleton] at h
          rcases h with (h | h) | h
          · exact Or.inl h
          · exact Or.inr ⟨(Prod.mk.injEq _ _ _ _ ▸ h).1.symm, horph⟩
          · exact Or.inr ⟨(Prod.mk.injEq _ _ _ _ ▸ h).1.symm, horph⟩
        | none =>
          rw [hk15] at h
          simp only [List.mem_append, List.mem_singleton] at h
          rcases h with (h | h) | h
          · exact Or.inl h
          · exact Or.inr ⟨(Prod.mk.injEq _ _ _ _ ▸ h).1.symm, horph⟩
          · exact Or.inr ⟨(Prod.mk.injEq _ _ _ _ ▸ h).1.symm, horph⟩
  · simp only [eq_false_of_ne_true horph, Bool.not_false, if_true] at h
    exact Or.inl h

theorem procFixStep_killed_dry (gp : Nat → Option Nat) (tmux : Nat → Bool)
    (kill : Nat → Nat → Option (List Char)) (acc : FixAcc) (q : ProcInfo) :
    (procFixStep gp tmux kill true acc q).killed =
      acc.killed +
        (if isOrphanProcess gp tmux q && (kill q.pid 0 == none) then 1 else 0) := by
  unfold procFixStep
  by_cases horph : isOrphanProcess gp tmux q
  · simp only [horph, Bool.not_true, Bool.false_eq_true, if_false, if_true]
    cases hk : kill q.pid 0 with
    | some e => simp [hk]
    | none => simp [hk]
  · simp [eq_false_of_ne_true horph]

theorem procFixStep_signals_dry (gp : Nat → Option Nat) (tmux : Nat → Bool)
    (kill : Nat → Nat → Option (List Char)) (acc : FixAcc) (q : ProcInfo) :
    (procFixStep gp tmux kill true acc q).signals =
      acc.signals ++ (if isOrphanProcess gp tmux q then [(q.pid, 0)] else []) := by
  unfold procFixStep
  by_cases horph : isOrphanProcess gp tmux q
  · simp only [horph, Bool.not_true, Bool.false_eq_true, if_false, if_true]
    cases hk : kill q.pid 0 with
    | some e => simp
    | none => simp
  · simp [eq_false_of_ne_true horph]

theorem procFix_foldl_skipped (gp : Nat → Option Nat) (tmux : Nat → Bool)
    (kill : Nat → Nat → Option (List Char)) (dryRun : Bool) :
    ∀ (l : List ProcInfo) (acc : FixAcc),
      (l.foldl (procFixStep gp tmux kill dryRun) acc).skipped =
        acc.skipped + (l.filter (fun p => !(isOrphanProcess gp tmux p))).length := by
  intro l
  induction l with
  | nil => intro acc; simp
  | cons q rest ih =>
    intro acc
    rw [List.foldl_cons, ih, procFixStep_skipped, List.filter_cons]
    by_cases horph : isOrphanProcess gp tmux q
    · simp [horph]
    · simp [eq_false_of_ne_true horph]
      omega

theorem procFix_foldl_signals (gp : Nat → Option Nat) (tmux : Nat → Bool)
    (kill : Nat → Nat → Option (List Char)) (dryRun : Bool) :
    ∀ (l : List ProcInfo) (acc : FixAcc) (p0 s : Nat),
      (p0, s) ∈ (l.foldl (procFixStep gp tmux kill dryRun) acc).signals →
        (p0, s) ∈ acc.signals ∨
          ∃ q ∈ l, q.pid = p0 ∧ isOrphanProcess gp tmux q = true := by
  intro l
  induction l with
  | nil => intro acc p0 s h; exact Or.inl h
  | cons q rest ih =>
    intro acc p0 s h
    rw [List.foldl_cons] at h
    rcases ih (procFixStep gp tmux kill dryRun acc q) p0 s h with h1 | h2
    · rcases procFixStep_signals gp tmux kill dryRun acc q p0 s h1 with ha | hb
      · exact Or.inl ha
      · exact Or.inr ⟨q, List.mem_cons_self q rest, hb⟩
    · obtain ⟨u, hu, hcase⟩ := h2
      exact Or.inr ⟨u, List.mem_cons_of_mem q hu, hcase⟩

theorem procFix_foldl_killed_dry (gp : Nat → Option Nat) (tmux : Nat → Bool)
    (kill : Nat → Nat → Option (List Char)) :
    ∀ (l : List ProcInfo) (acc : FixAcc),
      (l.foldl (procFixStep gp tmux kill true) acc).killed =
        acc.killed +
          (l.filter (fun p => isOrphanProcess gp tmux p && (kill p.pid 0 == none))).length := by
  intro l
  induction l with
  | nil => intro acc; simp
  | cons q rest ih =>
    intro acc
    rw [List.foldl_cons, ih, procFixStep_killed_dry, List.filter_cons]
    by_cases hcond : isOrphanProcess gp tmux q && (kill q.pid 0 == none)
    · simp [hcond]
      omega
    · simp [eq_false_of_ne_true hcond]

theorem procFix_foldl_signals_dry (gp : Nat → Option Nat) (tmux : Nat → Bool)
    (kill : Nat → Nat → Option (List Char)) :
    ∀ (l : List ProcInfo) (acc : FixAcc),
      (l.foldl (procFixStep gp tmux kill true) acc).signals =
        acc.signals ++
          (l.filter (fun p => isOrphanProcess gp tmux p)).map (fun q => (q.pid, 0)) := by
  intro l
  induction l with
  | nil => intro acc; simp
  | cons q rest ih =>
    intro acc
    rw [List.foldl_cons, ih, procFixStep_signals_dry, List.filter_cons]
    by_cases horph : isOrphanProcess gp tmux q
    · simp [horph]
    · simp [eq_false_of_ne_true horph]

/-- Claim C2: the Fix pass re-runs the ancestry check for every cached
candidate against the freshly resampled registry (pane PIDs plus tmux
server PIDs, the `fixRegistry`) before killing: candidates that now fail
the orphan test are counted separately as skipped, and a PID all of whose
cached candidates fail the fresh orphan test receives no signal at all. -/
theorem fix_reverification_skips (gp : Nat → Option Nat)
    (panePIDs serverPIDs : List Nat) (kill : Nat → Nat → Option (List Char))
    (dryRun : Bool) (orphans : List ProcInfo) (p0 : Nat)
    (hall : ∀ q ∈ orphans, q.pid = p0 →
      isOrphanProcess gp (fixRegistry panePIDs serverPIDs) q = false) :
    (processFix gp (some panePIDs) serverPIDs kill dryRun orphans).skipped
      = (orphans.filter
          (fun p => !(isOrphanProcess gp (fixRegistry panePIDs serverPIDs) p))).length
    ∧ ∀ s, (p0, s) ∉
        (processFix gp (some panePIDs) serverPIDs kill dryRun orphans).signals := by
  by_cases hemp : orphans.isEmpty
  · have : orphans = [] := List.isEmpty_iff.mp hemp
    subst this
    rw [processFix]
    simp
  · rw [processFix, if_neg hemp]
    simp only []
    set tmux := fixRegistry panePIDs serverPIDs with htmux
    set a := orphans.foldl (procFixStep gp tmux kill dryRun) ⟨0, 0, [], none⟩ with ha
    have hskip : a.skipped =
        (orphans.filter (fun p => !(isOrphanProcess gp tmux p))).length := by
      rw [ha, procFix_foldl_skipped]
      simp
    have hsig : ∀ s, (p0, s) ∉ a.signals := by
      intro s hmem
      rcases procFix_foldl_signals gp tmux kill dryRun orphans ⟨0, 0, [], none⟩ p0 s
          (by rw [← ha]; exact hmem) with hfalse | hex
      · cases hfalse
      · obtain ⟨q, hq, hpid, horph⟩ := hex
        rw [hall q hq hpid] at horph
        cases horph
    by_cases hdry : dryRun
    · rw [if_pos hdry]
      exact ⟨hskip, hsig⟩
    · rw [if_neg hdry]
      by_cases hcond : a.lastErr.isSome && a.killed == 0
      · rw [if_pos hcond]
        exact ⟨hskip, hsig⟩
      · rw [if_neg hcond]
        exact ⟨hskip, hsig⟩

/-- Witness for C2: the cached candidate PID 100 has been reparented under
pane PID 5 by Fix time, so it is skipped (counted once) and receives no
signal. -/
theorem fix_reverification_skips_witness :
    (processFix gpReparented (some [5]) [] (fun _ _ => none) false orphansOne).skipped
      = (orphansOne.filter
          (fun p => !(isOrphanProcess gpReparented (fixRegistry [5] []) p))).length
    ∧ ∀ s, (100, s) ∉
        (processFix gpReparented (some [5]) [] (fun _ _ => none) false orphansOne).signals :=
  fix_reverification_skips gpReparented [5] [] (fun _ _ => none) false orphansOne 100
    (by decide)

/-- Claim C8: with `DryRun = true` the orphan-process Fix performs the full
re-verification with the same classification logic but issues only
signal-0 existence probes (one per candidate that passes the fresh orphan
test) and never a real signal, returns no error, and reports the intended
kill count and the skip count. -/
theorem dryrun_no_real_signals (gp : Nat → Option Nat)
    (panePIDs serverPIDs : List Nat) (kill : Nat → Nat → Option (List Char))
    (orphans : List ProcInfo) :
    (processFix gp (some panePIDs) serverPIDs kill true orphans).signals
      = (orphans.filter
          (fun p => isOrphanProcess gp (fixRegistry panePIDs serverPIDs) p)).map
            (fun q => (q.pid, 0))
    ∧ (processFix gp (some panePIDs) serverPIDs kill true orphans).err = none
    ∧ (processFix gp (some panePIDs) serverPIDs kill true orphans).killed
      = (orphans.filter
          (fun p => isOrphanProcess gp (fixRegistry panePIDs serverPIDs) p
            && (kill p.pid 0 == none))).length
    ∧ (processFix gp (some panePIDs) serverPIDs kill true orphans).skipped
      = (orphans.filter
          (fun p => !(isOrphanProcess gp (fixRegistry panePIDs serverPIDs) p))).length := by
  by_cases hemp : orphans.isEmpty
  · have : orphans = [] := List.isEmpty_iff.mp hemp
    subst this
    rw [processFix]
    simp
  · rw [processFix, if_neg hemp]
    simp only []
    set tmux := fixRegistry panePIDs serverPIDs with htmux
    set a := orphans.foldl (procFixStep gp tmux kill true) ⟨0, 0, [], none⟩ with ha
    rw [if_pos trivial]
    refine ⟨?_, rfl, ?_, ?_⟩
    · rw [ha, procFix_foldl_signals_dry]
      simp
    · rw [ha, procFix_foldl_killed_dry]
      simp
    · rw [ha, procFix_foldl_skipped]
      simp

/-! ## Ancestry walk depth and lookup count (claim C5) -/

theorem orphanLoopCount_fst (gp : Nat → Option Nat) (tmux : Nat → Bool) :
    ∀ (fuel : Nat) (visited : List Nat) (cur n : Nat),
      (orphanLoopCount gp tmux fuel visited cur n).1 =
        orphanLoop gp tmux fuel visited cur := by
  intro fuel
  induction fuel with
  | zero => intro visited cur n; rfl
  | succ f ih =>
    intro visited cur n
    rw [orphanLoopCount, orphanLoop]
    by_cases hc : decide (cur > 1) && !(visited.contains cur)
    · rw [if_pos hc, if_pos hc]
      by_cases ht : tmux cur
      · rw [if_pos ht, if_pos ht]
      · rw [if_neg ht, if_neg ht]
        cases gp cur with
        | none => rfl
        | some next => exact ih (cur :: visited) next (n + 1)
    · rw [if_neg hc, if_neg hc]

theorem orphanLoopCount_le (gp : Nat → Option Nat) (tmux : Nat → Bool) :
    ∀ (fuel : Nat) (visited : List Nat) (cur n : Nat),
      (orphanLoopCount gp tmux fuel visited cur n).2 ≤ n + fuel := by
  intro fuel
  induction fuel with
  | zero => intro visited cur n; simp [orphanLoopCount]
  | succ f ih =>
    intro visited cur n
    rw [orphanLoopCount]
    by_cases hc : decide (cur > 1) && !(visited.contains cur)
    · rw [if_pos hc]
      by_cases ht : tmux cur
      · rw [if_pos ht]; omega
      · rw [if_neg ht]
        cases gp cur with
        | none => show n + 1 ≤ n + (f + 1); omega
        | some next =>
          calc (orphanLoopCount gp tmux f (cur :: visited) next (n + 1)).2
              ≤ (n + 1) + f := ih (cur :: visited) next (n + 1)
            _ ≤ n + (f + 1) := by omega
    · rw [if_neg hc]; omega

/-- Counterexample to claim C5: on the synthetic ancestor chain of depth 20
(PIDs 100 → 101 → … → 120, no tmux ancestor) the process is classified
orphaned, but the classification issues 9 parent-PID lookups (the initial
current-parent read plus 8 walk reads), not at most 8. -/
theorem ancestry_nine_lookups :
    isOrphanProcess gpChain20 (fun _ => false) procChain = true
    ∧ (isOrphanProcessCount gpChain20 (fun _ => false) procChain).2 = 9
    ∧ ¬ ((isOrphanProcessCount gpChain20 (fun _ => false) procChain).2 ≤ 8) := by
  refine ⟨by decide, by decide, by decide⟩

/-- Claim C5 as amended: the classification walks the ancestor chain
re-reading the current parent at each step for at most 8 levels (the loop
fuel), so it issues at most 9 parent-PID lookups in total — the initial
current-parent read plus at most 8 reads in the walk; the instrumented
walk computes exactly the classification of `isOrphanProcess`, and the
synthetic depth-20 chain with no tmux ancestor is classified orphaned
using exactly those 9 lookups. -/
theorem ancestry_lookup_bound :
    (∀ (gp : Nat → Option Nat) (tmux : Nat → Bool) (proc : ProcInfo),
      (isOrphanProcessCount gp tmux proc).1 = isOrphanProcess gp tmux proc
      ∧ (isOrphanProcessCount gp tmux proc).2 ≤ 9)
    ∧ isOrphanProcess gpChain20 (fun _ => false) procChain = true
    ∧ (isOrphanProcessCount gpChain20 (fun _ => false) procChain).2 = 9 := by
  refine ⟨fun gp tmux proc => ⟨?_, ?_⟩, by decide, by decide⟩
  · exact orphanLoopCount_fst gp tmux 8 [] ((gp proc.pid).getD proc.ppid) 1
  · exact orphanLoopCount_le gp tmux 8 [] ((gp proc.pid).getD proc.ppid) 1

/-! ## Stop-pass race underflow (claim C9) -/

/-- Claim C9: in both the daemon and activity stop passes, when the final
recount exceeds the count taken before the kill sequence (new matching
processes spawned mid-operation), the reported killed count is clamped to
zero — never negative — and the passes return plain counts, not an
error. -/
theorem stop_underflow_clamped (before : Int) (pids1 : List Int)
    (remaining : Int) (pids2 : List Int) (final : Int) (force : Bool)
    (h : before < final) :
    (stopBdDaemons before pids1 remaining pids2 final force).1 = 0
    ∧ (stopBdActivityProcesses before pids1 remaining pids2 final force).1 = 0
    ∧ 0 ≤ (stopBdDaemons before pids1 remaining pids2 final force).1
    ∧ 0 ≤ (stopBdActivityProcesses before pids1 remaining pids2 final force).1 := by
  unfold stopBdDaemons stopBdActivityProcesses
  by_cases hb : before = 0
  · rw [if_pos hb]
    exact ⟨rfl, rfl, le_refl 0, le_refl 0⟩
  · rw [if_neg hb]
    have hneg : before - final < 0 := by omega
    simp [if_pos hneg]
    constructor
    · intro hle; omega
    · split <;> omega

/-- Witness for C9: one daemon before, three after (two spawned during the
pass) — killed is reported as 0, not −2. -/
theorem stop_underflow_clamped_witness :
    (stopBdDaemons 1 [] 0 [] 3 false).1 = 0
    ∧ (stopBdActivityProcesses 1 [] 0 [] 3 false).1 = 0
    ∧ 0 ≤ (stopBdDaemons 1 [] 0 [] 3 false).1
    ∧ 0 ≤ (stopBdActivityProcesses 1 [] 0 [] 3 false).1 :=
  stop_underflow_clamped 1 [] 0 [] 3 false (by decide)

/-! ## Pattern scan agreement (claim C10) -/

theorem countFind_aux (cmdline : Nat → List Char) (pattern : List Char) :
    ∀ (entries : List DirEntry) (c : Nat) (l : List Nat), c = l.length →
      entries.foldl
        (fun count e =>
          if !e.isDir then count
          else
            match atoiL e.name with
            | none => count
            | some pid => if containsL (cmdline pid) pattern then count + 1 else count)
        c
      = (entries.foldl
          (fun pids e =>
            if !e.isDir then pids
            else
              match atoiL e.name with
              | none => pids
              | some pid => if containsL (cmdline pid) pattern then pids ++ [pid] else pids)
          l).length := by
  intro entries
  induction entries with
  | nil => intro c l h; simpa using h
  | cons e rest ih =>
    intro c l h
    simp only [List.foldl_cons]
    by_cases hd : e.isDir
    · simp only [hd, Bool.not_true, Bool.false_eq_true, if_false]
      cases ha : atoiL e.name with
      | none => exact ih c l h
      | some pid =>
        by_cases hc : containsL (cmdline pid) pattern
        · simp only [hc, if_pos]
          exact ih (c + 1) (l ++ [pid]) (by simp [h])
        · simp only [hc, Bool.false_eq_true, if_false]
          exact ih c l h
    · simp only [eq_false_of_ne_true hd, Bool.not_false, if_true]
      exact ih c l h

/-- Claim C10: for every pattern, `/proc` listing and per-PID command-line
oracle, `CountByPattern` equals the length of the PID list returned by
`FindByPattern` — both scan the same entries and apply the same
command-line substring test. -/
theorem count_eq_find_length (dir : Option (List DirEntry))
    (cmdline : Nat → List Char) (pattern : List Char) :
    countByPattern dir cmdline pattern =
      (findByPattern dir cmdline pattern).length := by
  cases dir with
  | none => rfl
  | some entries =>
    rw [countByPattern, findByPattern]
    exact countFind_aux cmdline pattern entries 0 [] rfl

end Gongshow
